import Mathlib

/-!
Verification of the streaming HTTP client of the knowledge-base search
frontend (src/services/api.ts) and of the answer-section parser of
src/components/QueryInterface.tsx.

Modelling conventions, read before the definitions:
  - Transport chunks are modelled after text decoding, as `List Char`.
    The source decodes bytes with a `TextDecoder` in streaming mode, which
    preserves multi-byte sequences split across chunk boundaries, so a
    byte-level chunk split corresponds exactly to a character-level split.
  - `JSON.parse` is an external platform function; the embedding takes it
    as a parameter `parse : List Char -> Option Json`, where `none` models
    a thrown parse exception.
  - JavaScript numbers are modelled as exact rationals.
  - JavaScript property access `x.f` throws a TypeError when `x` is null
    and yields `undefined` (modelled as `none`) when the field is absent
    or the value is not an object; `jsGet` models this with `Except`.
-/

/-- Model of a JavaScript value produced by `JSON.parse`. -/
inductive Json where
  | null
  | bool (b : Bool)
  | num (q : ℚ)
  | str (s : String)
  | arr (elems : List Json)
  | obj (fields : List (String × Json))

/-- Field lookup on an object; `none` models the JavaScript `undefined`
result of reading an absent field or reading a field of a non-object
non-null value. -/
def Json.getF : Json → String → Option Json
  | .obj fs, k => (fs.find? (fun p => p.1 = k)).map Prod.snd
  | _, _ => none

/-- Model of JavaScript property access `x.f`: throws (here `Except.error`)
when the receiver is null, otherwise reads the field. -/
def jsGet (j : Json) (k : String) : Except Unit (Option Json) :=
  match j with
  | .null => .error ()
  | _ => .ok (j.getF k)

/-- Model of JavaScript truthiness of a parsed value. -/
def jsTruthy : Json → Bool
  | .null => false
  | .bool b => b
  | .num q => decide (q ≠ 0)
  | .str s => decide (s ≠ "")
  | .arr _ => true
  | .obj _ => true

/-- Check on `data.type` performed by `queryStream`: the frame is terminal
when the field is the string "done" or the string "error". -/
def isTermField : Option Json → Bool
  | some (.str s) => s = "done" || s = "error"
  | _ => false

/-- Classification of a yielded event used in the statements: the event is
terminal exactly when its `type` field is "done" or "error". A null event
is not terminal (its property access throws before the comparison). -/
def isTerminalEv (j : Json) : Bool :=
  match jsGet j "type" with
  | .ok t => isTermField t
  | .error _ => false

/-- Split of the accumulated text buffer on the newline character,
modelling the JavaScript `buffer.split("\n")`; the result is always
nonempty and its last element is the text after the last newline. -/
def splitOnNl : List Char → List (List Char)
  | [] => [[]]
  | c :: rest =>
    if c = '\n' then [] :: splitOnNl rest
    else
      match splitOnNl rest with
      | [] => [[c]]
      | l :: ls => (c :: l) :: ls

/-- Complete lines of a text stream: every split segment except the
trailing (possibly unterminated) fragment. -/
def completeLines (s : List Char) : List (List Char) :=
  (splitOnNl s).dropLast

/-- Recognition test `line.startsWith("data: ")` of `queryStream`. -/
def isDataLine (l : List Char) : Bool :=
  "data: ".toList.isPrefixOf l

/-- Payload extraction `line.slice(6)` of `queryStream`. -/
def payloadOf (l : List Char) : List Char :=
  l.drop 6

/-- Control signal of the inner line loop of `queryStream`: continue with
the next line, return after a terminal frame, or propagate a thrown
exception (JSON.parse failure, or TypeError on a null frame). -/
inductive Sig where
  | cont
  | sawTerm
  | failed

/-- Inner loop of `queryStream` over the complete lines of one decoded
buffer: recognized frames are parsed and yielded in order; a parse
failure throws before yielding; after yielding, a null frame throws on
the `data.type` access and a terminal frame returns. Returns the yielded
events and the control signal. -/
def processLines (parse : List Char → Option Json) :
    List (List Char) → List Json × Sig
  | [] => ([], .cont)
  | l :: rest =>
    if isDataLine l then
      match parse (payloadOf l) with
      | none => ([], .failed)
      | some j =>
        match jsGet j "type" with
        | .error _ => ([j], .failed)
        | .ok t =>
          if isTermField t then ([j], .sawTerm)
          else
            let r := processLines parse rest
            (j :: r.1, r.2)
    else processLines parse rest

/-- Reason the read loop of `queryStream` stopped: the transport reported
end of stream, a terminal frame caused an early return, or an exception
propagated out of the loop. -/
inductive RunEnd where
  | exhausted
  | terminated
  | failed

/-- Observable result of the read loop of `queryStream`: the events
yielded in order, why the loop stopped, and how many `reader.read()`
calls were made. -/
structure RunOut where
  events : List Json
  outcome : RunEnd
  reads : Nat

/-- Read loop of `queryStream`: each iteration awaits one transport
chunk, appends it to the carried buffer, splits on newlines, keeps the
trailing fragment as the new buffer, and runs the line loop on the
complete lines; the loop stops on transport exhaustion (the trailing
fragment is dropped), on a terminal frame, or on a thrown exception. -/
def runChunks (parse : List Char → Option Json) :
    List (List Char) → List Char → RunOut
  | [], _ => ⟨[], .exhausted, 1⟩
  | c :: rest, buf =>
    let segs := splitOnNl (buf ++ c)
    let r := processLines parse segs.dropLast
    match r.2 with
    | .cont =>
      let k := runChunks parse rest (segs.getLastD [])
      ⟨r.1 ++ k.events, k.outcome, k.reads + 1⟩
    | .sawTerm => ⟨r.1, .terminated, 1⟩
    | .failed => ⟨r.1, .failed, 1⟩

/-- Events-and-outcome view of a run, ignoring the read count. -/
def obs (r : RunOut) : List Json × RunEnd :=
  (r.events, r.outcome)

/-- Mapping from the line-loop signal to the run outcome, used to state
that chunked processing agrees with one-shot processing. -/
def sigToEnd : Sig → RunEnd
  | .cont => .exhausted
  | .sawTerm => .terminated
  | .failed => .failed

/-- Specification-side observable of a whole stream text: the line loop
applied once to all complete lines of the stream. -/
def streamObs (parse : List Char → Option Json) (s : List Char) :
    List Json × RunEnd :=
  let r := processLines parse (completeLines s)
  (r.1, sigToEnd r.2)

/-- Model of the `fetch` response as the client observes it: success
flag, HTTP status, status text, the result of `response.json()` (`none`
models a rejected body parse), and the streamed body as decoded text
chunks (`none` models a null `response.body`). -/
structure Resp where
  ok : Bool
  status : Nat
  statusText : String
  jsonBody : Option Json
  bodyChunks : Option (List (List Char))

/-- Model of the `APIError` class: message (a JavaScript value), HTTP
status, and optional detail. -/
structure APIErr where
  message : Json
  status : Nat
  detail : Option Json

/-- Exception surfaced by `handleResponse` or the request phase of
`queryStream`: either a constructed `APIError`, or a TypeError raised by
a property access on a null error body. -/
inductive Thrown where
  | api (e : APIErr)
  | typeError

/-- Computation `error.error || "API Error"` of the source: the `error`
field when truthy, otherwise the literal fallback message. -/
def errValue (mv : Option Json) : Json :=
  match mv with
  | some v => if jsTruthy v then v else .str "API Error"
  | none => .str "API Error"

/-- Model of `handleResponse`: on success the parsed body is returned; on
a non-success status the body is parsed (with the fallback object
carrying "Unknown error" and the status text when parsing rejects) and an
`APIError` with message, status and the optional `detail` field is
thrown. -/
def handleResponse (r : Resp) : Except Thrown (Option Json) :=
  if r.ok then .ok r.jsonBody
  else
    let e := r.jsonBody.getD
      (.obj [("error", .str "Unknown error"), ("detail", .str r.statusText)])
    match jsGet e "error" with
    | .error _ => .error .typeError
    | .ok mv =>
      match jsGet e "detail" with
      | .error _ => .error .typeError
      | .ok md => .error (.api ⟨errValue mv, r.status, md⟩)

/-- Overall result of one `queryStream` call: an exception thrown before
the read loop because the initiating request failed, the missing-body
error, or a run of the read loop (in which case the reader lock was
acquired and, by the `finally` clause, released). -/
inductive QSOut where
  | thrownEarly (e : Thrown)
  | noBody
  | ran (r : RunOut)

/-- Model of `queryStream`: a non-success initiating response throws an
`APIError` built from the parsed error body (fallback object carrying
only "Unknown error" when parsing rejects) with no detail argument; a
success response without a readable body throws the missing-body error;
otherwise the read loop runs over the body chunks with an empty initial
buffer. -/
def queryStream (parse : List Char → Option Json) (r : Resp) : QSOut :=
  if ¬ r.ok then
    let e := r.jsonBody.getD (.obj [("error", .str "Unknown error")])
    match jsGet e "error" with
    | .error _ => .thrownEarly .typeError
    | .ok mv => .thrownEarly (.api ⟨errValue mv, r.status, none⟩)
  else
    match r.bodyChunks with
    | none => .noBody
    | some cs => .ran (runChunks parse cs [])

/-- Events yielded to the caller by one `queryStream` call. -/
def eventsOf : QSOut → List Json
  | .thrownEarly _ => []
  | .noBody => []
  | .ran r => r.events

/-- Helper describing how a nonempty split result absorbs a prefix glued
onto its first segment. -/
def consHead (x : List Char) : List (List Char) → List (List Char)
  | [] => [x]
  | l :: ls => (x ++ l) :: ls

/-- Helper describing how a split result absorbs one extra leading
non-newline character. -/
def consFirst (c : Char) : List (List Char) → List (List Char)
  | [] => [[c]]
  | l :: ls => (c :: l) :: ls

theorem splitOnNl_ne_nil (s : List Char) : splitOnNl s ≠ [] := by
  cases s with
  | nil => simp [splitOnNl]
  | cons c rest =>
    simp only [splitOnNl]
    split
    · simp
    · split <;> simp

theorem splitOnNl_cons (c : Char) (s : List Char) :
    splitOnNl (c :: s) =
      if c = '\n' then [] :: splitOnNl s else consFirst c (splitOnNl s) := by
  simp only [splitOnNl]
  split
  · rfl
  · cases h : splitOnNl s <;> simp [consFirst, h]

theorem splitOnNl_no_nl (s : List Char) (h : '\n' ∉ s) : splitOnNl s = [s] := by
  induction s with
  | nil => rfl
  | cons c rest ih =>
    simp only [List.mem_cons, not_or] at h
    rw [splitOnNl_cons, if_neg (fun hc => h.1 hc.symm), ih h.2]
    rfl

theorem getLastD_irrel (l : List (List Char)) (h : l ≠ []) (d d' : List Char) :
    l.getLastD d = l.getLastD d' := by
  cases l with
  | nil => exact absurd rfl h
  | cons x xs =>
    induction xs generalizing x with
    | nil => rfl
    | cons y ys ih => simp [List.getLastD]

theorem consHead_ne_nil (x : List Char) (l : List (List Char)) :
    consHead x l ≠ [] := by
  cases l <;> simp [consHead]

theorem splitOnNl_append (a b : List Char) :
    splitOnNl (a ++ b) =
      (splitOnNl a).dropLast ++
        consHead ((splitOnNl a).getLastD []) (splitOnNl b) := by
  induction a with
  | nil =>
    cases h : splitOnNl b with
    | nil => exact absurd h (splitOnNl_ne_nil b)
    | cons l ls => simp [splitOnNl, consHead, h]
  | cons c a ih =>
    by_cases hc : c = '\n'
    · subst hc
      rw [List.cons_append, splitOnNl_cons, if_pos rfl, ih,
        splitOnNl_cons, if_pos rfl]
      cases h : splitOnNl a with
      | nil => exact absurd h (splitOnNl_ne_nil a)
      | cons l ls =>
        cases ls with
        | nil => simp [List.getLastD]
        | cons m ms => simp [List.getLastD]
    · rw [List.cons_append, splitOnNl_cons, if_neg hc, ih,
        splitOnNl_cons, if_neg hc]
      cases h : splitOnNl a with
      | nil => exact absurd h (splitOnNl_ne_nil a)
      | cons l ls =>
        cases ls with
        | nil =>
          cases hb : splitOnNl b with
          | nil => exact absurd hb (splitOnNl_ne_nil b)
          | cons m ms => simp [consFirst, consHead, List.getLastD]
        | cons m ms =>
          have hir := getLastD_irrel (m :: ms) (by simp) l (c :: l)
          simp only [consFirst, List.dropLast_cons₂, List.cons_append,
            List.getLastD_cons, hir]

theorem getLastD_no_nl (s : List Char) : '\n' ∉ (splitOnNl s).getLastD [] := by
  induction s with
  | nil => simp [splitOnNl]
  | cons c rest ih =>
    rw [splitOnNl_cons]
    by_cases hc : c = '\n'
    · rw [if_pos hc, List.getLastD_cons]
      cases h : splitOnNl rest with
      | nil => exact absurd h (splitOnNl_ne_nil rest)
      | cons l ls =>
        rw [h] at ih
        rwa [getLastD_irrel (l :: ls) (by simp) [] []]
    · rw [if_neg hc]
      cases h : splitOnNl rest with
      | nil => exact absurd h (splitOnNl_ne_nil rest)
      | cons l ls =>
        rw [h] at ih
        cases ls with
        | nil =>
          simp only [consFirst, List.getLastD_cons, List.getLastD] at *
          intro hm
          rcases List.mem_cons.mp hm with h1 | h1
          · exact hc h1.symm
          · exact ih h1
        | cons m ms =>
          simp only [consFirst, List.getLastD_cons] at *
          exact ih

theorem consHead_splitOnNl (L x : List Char) (h : '\n' ∉ L) :
    consHead L (splitOnNl x) = splitOnNl (L ++ x) := by
  rw [splitOnNl_append, splitOnNl_no_nl L h]
  simp [List.getLastD_cons, List.getLastD]

theorem processLines_append (parse : List Char → Option Json)
    (xs ys : List (List Char)) :
    processLines parse (xs ++ ys) =
      (let r := processLines parse xs
       match r.2 with
       | .cont => (r.1 ++ (processLines parse ys).1, (processLines parse ys).2)
       | _ => r) := by
  induction xs with
  | nil => simp [processLines]
  | cons l rest ih =>
    by_cases hd : isDataLine l
    · cases hp : parse (payloadOf l) with
      | none => simp [processLines, hd, hp]
      | some j =>
        cases hj : jsGet j "type" with
        | error e => simp [processLines, hd, hp, hj]
        | ok t =>
          by_cases ht : isTermField t
          · simp [processLines, hd, hp, hj, ht]
          · cases h0 : (processLines parse rest).2 <;>
              simp [processLines, hd, hp, hj, ht, ih, h0]
    · simp [processLines, hd, ih]

/-- Central buffering lemma: running the read loop over any chunk list,
starting from a newline-free carried buffer, observes exactly the
one-shot line-loop result on the complete lines of the concatenated
stream text. -/
theorem runChunks_obs (parse : List Char → Option Json) :
    ∀ (cs : List (List Char)) (buf : List Char), '\n' ∉ buf →
      obs (runChunks parse cs buf) = streamObs parse (buf ++ cs.flatten) := by
  intro cs
  induction cs with
  | nil =>
    intro buf hb
    simp [runChunks, obs, streamObs, completeLines,
      splitOnNl_no_nl buf hb, processLines, sigToEnd]
  | cons c rest ih =>
    intro buf hb
    have key : completeLines (buf ++ (c :: rest).flatten) =
        (splitOnNl (buf ++ c)).dropLast ++
          completeLines ((splitOnNl (buf ++ c)).getLastD [] ++ rest.flatten) := by
      have h1 : buf ++ (c :: rest).flatten = (buf ++ c) ++ rest.flatten := by
        rw [List.flatten_cons, List.append_assoc]
      rw [h1]
      unfold completeLines
      rw [splitOnNl_append (buf ++ c) rest.flatten,
        List.dropLast_append_of_ne_nil _ (consHead_ne_nil _ _),
        consHead_splitOnNl _ _ (getLastD_no_nl (buf ++ c))]
    have ihx := ih ((splitOnNl (buf ++ c)).getLastD []) (getLastD_no_nl _)
    simp only [obs, streamObs] at ihx ⊢
    rw [key, processLines_append]
    simp only [runChunks]
    cases h0 : (processLines parse (splitOnNl (buf ++ c)).dropLast).2 <;>
      simp [h0, sigToEnd, ihx, Prod.ext_iff] at ihx ⊢
    · exact ⟨ihx.1, ihx.2⟩

/-- Short-circuit of the read loop: when a run does not end by transport
exhaustion, appending further transport chunks changes nothing, read
count included. -/
theorem runChunks_append_stop (parse : List Char → Option Json)
    (cs more : List (List Char)) :
    ∀ buf, (runChunks parse cs buf).outcome ≠ RunEnd.exhausted →
      runChunks parse (cs ++ more) buf = runChunks parse cs buf := by
  induction cs with
  | nil => intro buf h; simp [runChunks] at h
  | cons c rest ih =>
    intro buf h
    simp only [List.cons_append, runChunks] at h ⊢
    cases h0 : (processLines parse (splitOnNl (buf ++ c)).dropLast).2 <;>
      simp only [h0] at h ⊢
    · rw [show rest.append more = rest ++ more from rfl, ih _ h]

/-- Lines with no recognized frame yield nothing and continue. -/
theorem processLines_no_data (parse : List Char → Option Json)
    (lines : List (List Char)) (h : lines.filter isDataLine = []) :
    processLines parse lines = ([], .cont) := by
  induction lines with
  | nil => rfl
  | cons l rest ih =>
    by_cases hd : isDataLine l
    · simp [List.filter_cons, hd] at h
    · simp only [List.filter_cons, hd] at h
      simp only [processLines, hd]
      simp [ih h]

/-- Every event yielded by the line loop other than the final one is
non-terminal, and when the loop signals continuation every yielded event
is non-terminal. -/
theorem processLines_not_term (parse : List Char → Option Json)
    (lines : List (List Char)) :
    (∀ e ∈ (processLines parse lines).1.dropLast, isTerminalEv e = false) ∧
    ((processLines parse lines).2 = Sig.cont →
      ∀ e ∈ (processLines parse lines).1, isTerminalEv e = false) := by
  induction lines with
  | nil => simp [processLines]
  | cons l rest ih =>
    by_cases hd : isDataLine l
    · cases hp : parse (payloadOf l) with
      | none => simp [processLines, hd, hp]
      | some j =>
        cases hj : jsGet j "type" with
        | error e => simp [processLines, hd, hp, hj]
        | ok t =>
          by_cases ht : isTermField t
          · simp [processLines, hd, hp, hj, ht]
          · have hjt : isTerminalEv j = false := by
              simp [isTerminalEv, hj, ht]
            simp only [processLines, hd, hp, hj, ht, if_true, if_false]
            constructor
            · intro e he
              cases hr : (processLines parse rest).1 with
              | nil => simp [hr] at he
              | cons x xs =>
                rw [hr] at he
                rcases List.mem_cons.mp (by
                  simpa [List.dropLast_cons₂] using he) with h1 | h1
                · exact h1 ▸ hjt
                · exact ih.1 e (by simp [hr, h1])
            · intro hc e he
              rcases List.mem_cons.mp he with h1 | h1
              · exact h1 ▸ hjt
              · exact ih.2 hc e h1
    · simp only [processLines, hd]
      simpa using ih

/-- Membership in the initial segment of an appended list. -/
theorem mem_dropLast_append {α : Type} (e : α) (a b : List α)
    (h : e ∈ (a ++ b).dropLast) : e ∈ a ∨ e ∈ b.dropLast := by
  cases hb : b with
  | nil => subst hb; simp at h; exact Or.inl (List.dropLast_subset a h)
  | cons x xs =>
    rw [hb] at h
    rw [List.dropLast_append_of_ne_nil a (by simp)] at h
    rcases List.mem_append.mp h with h1 | h1
    · exact Or.inl h1
    · exact Or.inr h1

/-- Every event yielded by the read loop other than the final one is
non-terminal. -/
theorem runChunks_not_term (parse : List Char → Option Json)
    (cs : List (List Char)) :
    ∀ buf, ∀ e ∈ (runChunks parse cs buf).events.dropLast,
      isTerminalEv e = false := by
  induction cs with
  | nil => intro buf e he; simp [runChunks] at he
  | cons c rest ih =>
    intro buf e he
    simp only [runChunks] at he
    cases h0 : (processLines parse (splitOnNl (buf ++ c)).dropLast).2 <;>
      simp only [h0] at he
    · rcases mem_dropLast_append e _ _ he with h1 | h1
      · exact (processLines_not_term parse _).2 h0 e h1
      · exact ih _ e h1
    · exact (processLines_not_term parse _).1 e he
    · exact (processLines_not_term parse _).1 e he

/-- Recognized frames of a stream text: the complete lines carrying the
"data: " marker, in arrival order. -/
def recognizedFrames (s : List Char) : List (List Char) :=
  (completeLines s).filter isDataLine

/-- Wellformedness of one recognized frame as a non-final stream element:
its payload parses and its classification is not terminal (in particular
it is not the null value, whose type access would throw). -/
def frameContinues (parse : List Char → Option Json) (l : List Char) : Bool :=
  match parse (payloadOf l) with
  | some j =>
    match jsGet j "type" with
    | .ok t => !isTermField t
    | .error _ => false
  | none => false

/-- Classification lemma for the line loop: when every recognized frame
parses and every recognized frame except possibly the final one is
non-terminal, the yielded events are exactly the parses of the
recognized frames, in order. -/
theorem processLines_classify (parse : List Char → Option Json)
    (lines : List (List Char))
    (h1 : ∀ l ∈ lines.filter isDataLine, (parse (payloadOf l)).isSome = true)
    (h2 : ∀ l ∈ (lines.filter isDataLine).dropLast,
        frameContinues parse l = true) :
    (processLines parse lines).1.map some =
      (lines.filter isDataLine).map (fun l => parse (payloadOf l)) := by
  induction lines with
  | nil => simp [processLines]
  | cons l rest ih =>
    by_cases hd : isDataLine l
    · simp only [List.filter_cons, hd, if_true] at h1 h2 ⊢
      have hs : (parse (payloadOf l)).isSome = true := h1 l (by simp)
      cases hp : parse (payloadOf l) with
      | none => rw [hp] at hs; simp at hs
      | some j =>
        cases hf : List.filter isDataLine rest with
        | nil =>
          have hrest := processLines_no_data parse rest hf
          cases hj : jsGet j "type" with
          | error e => simp [processLines, hd, hp, hj, hf]
          | ok t =>
            by_cases ht : isTermField t
            · simp [processLines, hd, hp, hj, ht, hf]
            · simp [processLines, hd, hp, hj, ht, hf, hrest]
        | cons f fs =>
          have hcl : frameContinues parse l = true := by
            apply h2 l
            rw [hf, List.dropLast_cons₂]
            simp
          simp only [frameContinues, hp] at hcl
          cases hj : jsGet j "type" with
          | error e => rw [hj] at hcl; simp at hcl
          | ok t =>
            rw [hj] at hcl
            simp only [Bool.not_eq_true'] at hcl
            have ihx := ih (fun x hx => h1 x (by simp [hx]))
              (fun x hx => h2 x (by
                rw [hf] at hx ⊢
                rw [List.dropLast_cons₂]
                simp [hx]))
            simp [processLines, hd, hp, hj, hcl, ihx, hf]
    · simp only [List.filter_cons, hd, if_false, Bool.false_eq_true]
      simp only [processLines, hd, if_false, Bool.false_eq_true]
      simp only [List.filter_cons, hd] at h1 h2
      exact ih h1 h2

/-- Concrete miniature parse function used by the witnesses, recognizing
five fixed payload texts. -/
def parse0 (p : List Char) : Option Json :=
  if p = "D".toList then some (.obj [("type", .str "done")])
  else if p = "E".toList then
    some (.obj [("type", .str "error"), ("data", .str "boom")])
  else if p = "S".toList then
    some (.obj [("type", .str "sources"), ("data", .arr [])])
  else if p = "A".toList then
    some (.obj [("type", .str "answer"), ("data", .str "hi")])
  else if p = "U".toList then some (.obj [("type", .str "mystery")])
  else none

/-- C1: chunking-invariance with order preservation. For every way of
splitting the stream text into transport chunks, the read loop of
`queryStream` observes the same events in the same order and stops for
the same reason; and when every recognized frame parses and every
recognized frame except possibly the last is non-terminal, the yielded
events are exactly the classification of the frames F1..Fn, in arrival
order, with no reordering, duplication, or loss. -/
theorem queryStream_chunking_invariance (parse : List Char → Option Json)
    (cs cs' : List (List Char)) (hjoin : cs.flatten = cs'.flatten) :
    obs (runChunks parse cs []) = obs (runChunks parse cs' []) ∧
    ((∀ l ∈ recognizedFrames cs.flatten,
        (parse (payloadOf l)).isSome = true) →
     (∀ l ∈ (recognizedFrames cs.flatten).dropLast,
        frameContinues parse l = true) →
     (runChunks parse cs []).events.map some =
       (recognizedFrames cs.flatten).map (fun l => parse (payloadOf l))) := by
  have e1 := runChunks_obs parse cs [] (by simp)
  have e2 := runChunks_obs parse cs' [] (by simp)
  constructor
  · rw [e1, e2, List.nil_append, List.nil_append, hjoin]
  · intro h1 h2
    have he : (runChunks parse cs []).events =
        (processLines parse (completeLines cs.flatten)).1 := by
      have := congrArg Prod.fst e1
      simpa [obs, streamObs] using this
    rw [he]
    exact processLines_classify parse _ h1 h2

/-- Instantiation of the C1 theorem on the concrete two-chunk split of
a two-frame stream, with the chunk boundary inside the second frame
marker. -/
theorem queryStream_chunking_invariance_witness :
    ((["data: S\nda".toList, "ta: A\n".toList] : List (List Char)).flatten =
      (["data: S\ndata: A\n".toList] : List (List Char)).flatten) ∧
    ((recognizedFrames
        (["data: S\nda".toList, "ta: A\n".toList] : List (List Char)).flatten).all
      (fun l => (parse0 (payloadOf l)).isSome)) = true ∧
    obs (runChunks parse0 ["data: S\nda".toList, "ta: A\n".toList] []) =
      obs (runChunks parse0 ["data: S\ndata: A\n".toList] []) ∧
    (runChunks parse0 ["data: S\nda".toList, "ta: A\n".toList] []).events.map
        some =
      (recognizedFrames
          (["data: S\nda".toList, "ta: A\n".toList] : List (List Char)).flatten).map
        (fun l => parse0 (payloadOf l)) :=
  ⟨by decide, by decide,
    (queryStream_chunking_invariance parse0 _ _ (by decide)).1,
    (queryStream_chunking_invariance parse0
        ["data: S\nda".toList, "ta: A\n".toList]
        ["data: S\ndata: A\n".toList] (by decide)).2
      (by decide) (by decide)⟩

/-- C2: terminal short-circuit. Every event yielded by the read loop
before the final one is non-terminal (so at most one terminal event is
ever yielded); once a run ends because a terminal frame was decoded,
appending further transport chunks changes nothing, including the count
of transport reads; and within one buffer, a terminal frame makes the
line loop return at once, parsing none of the remaining lines. -/
theorem queryStream_terminal_short_circuit (parse : List Char → Option Json) :
    (∀ cs buf, ∀ e ∈ (runChunks parse cs buf).events.dropLast,
        isTerminalEv e = false) ∧
    (∀ cs more buf, (runChunks parse cs buf).outcome = RunEnd.terminated →
        runChunks parse (cs ++ more) buf = runChunks parse cs buf) ∧
    (∀ l rest j, isDataLine l = true → parse (payloadOf l) = some j →
        isTerminalEv j = true →
        processLines parse (l :: rest) = ([j], Sig.sawTerm)) := by
  refine ⟨fun cs buf => runChunks_not_term parse cs buf,
    fun cs more buf h =>
      runChunks_append_stop parse cs more buf (by rw [h]; simp),
    ?_⟩
  intro l rest j hd hp ht
  cases hj : jsGet j "type" with
  | error e => simp only [isTerminalEv, hj] at ht; exact Bool.noConfusion ht
  | ok t =>
    simp only [isTerminalEv, hj] at ht
    simp [processLines, hd, hp, hj, ht]

/-- Instantiation of the C2 theorem: a stream whose first chunk carries a
sources frame, a done frame and a trailing answer frame, followed by one
more chunk that is never read. -/
theorem queryStream_terminal_short_circuit_witness :
    (runChunks parse0 ["data: S\ndata: D\n".toList] []).outcome =
      RunEnd.terminated ∧
    runChunks parse0
        (["data: S\ndata: D\n".toList] ++ ["data: A\n".toList]) [] =
      runChunks parse0 ["data: S\ndata: D\n".toList] [] ∧
    isDataLine "data: D".toList = true ∧
    parse0 (payloadOf "data: D".toList) =
      some (Json.obj [("type", Json.str "done")]) ∧
    isTerminalEv (Json.obj [("type", Json.str "done")]) = true ∧
    processLines parse0 ["data: D".toList, "data: A".toList] =
      ([Json.obj [("type", Json.str "done")]], Sig.sawTerm) :=
  ⟨rfl,
    (queryStream_terminal_short_circuit parse0).2.1 _ _ _ rfl,
    rfl, rfl, rfl,
    (queryStream_terminal_short_circuit parse0).2.2 _ _ _ rfl rfl rfl⟩

/-- Failure lemma for the line loop: when the lines decompose as healthy
frames, then a recognized frame whose payload does not parse, the loop
yields exactly the healthy classifications and signals the thrown parse
error; the bad frame and everything after it are never yielded. -/
theorem processLines_fail_at (parse : List Char → Option Json)
    (pre : List (List Char)) (bad : List Char) (post : List (List Char))
    (hok : ∀ l ∈ pre.filter isDataLine, frameContinues parse l = true)
    (hbad : isDataLine bad = true)
    (hfail : parse (payloadOf bad) = none) :
    (processLines parse (pre ++ bad :: post)).2 = Sig.failed ∧
    (processLines parse (pre ++ bad :: post)).1.map some =
      (pre.filter isDataLine).map (fun l => parse (payloadOf l)) := by
  induction pre with
  | nil => simp [processLines, hbad, hfail]
  | cons l rest ih =>
    by_cases hd : isDataLine l
    · have hcl : frameContinues parse l = true := by
        apply hok l
        simp [List.filter_cons, hd]
      cases hp : parse (payloadOf l) with
      | none =>
        simp only [frameContinues, hp] at hcl
        exact Bool.noConfusion hcl
      | some j =>
        simp only [frameContinues, hp] at hcl
        cases hj : jsGet j "type" with
        | error e => rw [hj] at hcl; exact Bool.noConfusion hcl
        | ok t =>
          rw [hj] at hcl
          simp only [Bool.not_eq_true'] at hcl
          have ihx := ih (fun x hx => hok x (by simp [List.filter_cons, hd, hx]))
          simp [processLines, hd, hp, hj, hcl, List.filter_cons, ihx.1, ihx.2]
    · have ihx := ih (fun x hx => hok x (by simp [List.filter_cons, hd, hx]))
      simp only [List.cons_append, processLines, hd, if_false,
        Bool.false_eq_true, List.filter_cons]
      simpa [hd] using ihx

/-- C3: malformed-frame fatality. When the complete lines of the stream
consist of healthy recognized frames followed by a recognized frame
whose payload does not parse, the run of `queryStream` stops with the
propagated exception, the bad frame is neither yielded nor skipped, no
synthetic error event is produced, and no later frame is parsed or
yielded: the yielded events are exactly the classifications of the
healthy frames before the bad one. -/
theorem queryStream_malformed_frame_fatal (parse : List Char → Option Json)
    (cs : List (List Char)) (pre : List (List Char)) (bad : List Char)
    (post : List (List Char))
    (hsplit : completeLines cs.flatten = pre ++ bad :: post)
    (hok : ∀ l ∈ pre.filter isDataLine, frameContinues parse l = true)
    (hbad : isDataLine bad = true)
    (hfail : parse (payloadOf bad) = none) :
    (runChunks parse cs []).outcome = RunEnd.failed ∧
    (runChunks parse cs []).events.map some =
      (pre.filter isDataLine).map (fun l => parse (payloadOf l)) := by
  have e1 := runChunks_obs parse cs [] (by simp)
  rw [List.nil_append] at e1
  have hev := congrArg Prod.fst e1
  have hoc := congrArg Prod.snd e1
  simp only [obs, streamObs] at hev hoc
  rw [hsplit] at hev hoc
  have hx := processLines_fail_at parse pre bad post hok hbad hfail
  rw [hev, hoc, hx.2, hx.1]
  exact ⟨rfl, rfl⟩

/-- Instantiation of the C3 theorem: a stream with one healthy sources
frame, then a frame whose payload the parse function rejects, then one
more frame that is never reached. -/
theorem queryStream_malformed_frame_fatal_witness :
    completeLines
        (["data: S\ndata: X\ndata: A\n".toList] : List (List Char)).flatten =
      ["data: S".toList] ++ "data: X".toList :: ["data: A".toList] ∧
    ((["data: S".toList] : List (List Char)).filter isDataLine).all
      (fun l => frameContinues parse0 l) = true ∧
    isDataLine "data: X".toList = true ∧
    parse0 (payloadOf "data: X".toList) = none ∧
    (runChunks parse0 ["data: S\ndata: X\ndata: A\n".toList] []).outcome =
      RunEnd.failed ∧
    (runChunks parse0 ["data: S\ndata: X\ndata: A\n".toList] []).events.map
        some =
      ((["data: S".toList] : List (List Char)).filter isDataLine).map
        (fun l => parse0 (payloadOf l)) :=
  ⟨by decide, by decide, rfl, rfl,
    (queryStream_malformed_frame_fatal parse0
        ["data: S\ndata: X\ndata: A\n".toList] ["data: S".toList]
        "data: X".toList ["data: A".toList] (by decide) (by decide)
      rfl rfl).1,
    (queryStream_malformed_frame_fatal parse0
        ["data: S\ndata: X\ndata: A\n".toList] ["data: S".toList]
        "data: X".toList ["data: A".toList] (by decide) (by decide)
      rfl rfl).2⟩

/-- C8: partial-line buffering and trailing-fragment drop. While the
transport still produces bytes, a newline-free chunk appended to a
newline-free carried buffer is never parsed: it yields no event and is
retained, prefixed to the following input; and a trailing unterminated
fragment at the end of the stream is dropped, producing no event and
never reaching the parse function, whatever that function is. -/
theorem queryStream_partial_line_buffering (parse : List Char → Option Json) :
    (∀ c rest buf, '\n' ∉ buf → '\n' ∉ c →
      runChunks parse (c :: rest) buf =
        { events := (runChunks parse rest (buf ++ c)).events,
          outcome := (runChunks parse rest (buf ++ c)).outcome,
          reads := (runChunks parse rest (buf ++ c)).reads + 1 }) ∧
    (∀ cs frag buf, '\n' ∉ buf → '\n' ∉ frag →
      obs (runChunks parse (cs ++ [frag]) buf) =
        obs (runChunks parse cs buf)) := by
  constructor
  · intro c rest buf hb hc
    have hnb : '\n' ∉ buf ++ c :=
      fun hm => Or.elim (List.mem_append.mp hm) hb hc
    simp [runChunks, splitOnNl_no_nl _ hnb, processLines, List.getLastD]
  · intro cs frag buf
    induction cs generalizing buf with
    | nil =>
      intro hb hf
      have hnb : '\n' ∉ buf ++ frag :=
        fun hm => Or.elim (List.mem_append.mp hm) hb hf
      simp [runChunks, splitOnNl_no_nl _ hnb, processLines, obs]
    | cons c rest ih =>
      intro hb hf
      simp only [List.cons_append, runChunks]
      cases h0 : (processLines parse (splitOnNl (buf ++ c)).dropLast).2 <;>
        simp only [h0, obs]
      · have hx := ih ((splitOnNl (buf ++ c)).getLastD [])
          (getLastD_no_nl (buf ++ c)) hf
        simp only [obs, Prod.mk.injEq, List.getLastD_eq_getLast?,
          List.append_eq] at hx ⊢
        exact ⟨by rw [hx.1], hx.2⟩

/-- Instantiation of the C8 theorem: a chunk that stops in the middle of
a frame yields nothing yet, and a stream ending with an unterminated
malformed fragment drops it silently. -/
theorem queryStream_partial_line_buffering_witness :
    ('\n' ∉ ([] : List Char)) ∧ ('\n' ∉ "data: S".toList) ∧
    runChunks parse0 ["data: S".toList, "\ndata: D\n".toList] [] =
      { events := (runChunks parse0 ["\ndata: D\n".toList]
          ([] ++ "data: S".toList)).events,
        outcome := (runChunks parse0 ["\ndata: D\n".toList]
          ([] ++ "data: S".toList)).outcome,
        reads := (runChunks parse0 ["\ndata: D\n".toList]
          ([] ++ "data: S".toList)).reads + 1 } ∧
    ('\n' ∉ "data: X".toList) ∧
    obs (runChunks parse0 (["data: S\n".toList] ++ ["data: X".toList]) []) =
      obs (runChunks parse0 ["data: S\n".toList] []) :=
  ⟨by decide, by decide,
    (queryStream_partial_line_buffering parse0).1 _ _ _ (by decide)
      (by decide),
    by decide,
    (queryStream_partial_line_buffering parse0).2 _ _ _ (by decide)
      (by decide)⟩

/-- C7: forward-compatible unknown kinds. A well-formed recognized frame
whose type field is any string other than the four known kinds is
yielded as an event whose kind is that literal string: it is neither
rejected nor filtered out, it is not treated as terminal, and the run
continues into the remaining lines of the stream. -/
theorem queryStream_unknown_kind_forwarded (parse : List Char → Option Json)
    (s l : List Char) (rest : List (List Char)) (j : Json) (t : String)
    (hlines : completeLines s = l :: rest)
    (hd : isDataLine l = true)
    (hp : parse (payloadOf l) = some j)
    (ht : jsGet j "type" = Except.ok (some (Json.str t)))
    (_hn1 : t ≠ "sources") (_hn2 : t ≠ "answer") (hn3 : t ≠ "done")
    (hn4 : t ≠ "error") :
    (runChunks parse [s] []).events = j :: (processLines parse rest).1 ∧
    j.getF "type" = some (Json.str t) ∧
    isTerminalEv j = false ∧
    (runChunks parse [s] []).outcome = sigToEnd (processLines parse rest).2 := by
  have hterm : isTermField (some (Json.str t)) = false := by
    simp [isTermField, hn3, hn4]
  have hjt : isTerminalEv j = false := by simp [isTerminalEv, ht, hterm]
  have hgf : j.getF "type" = some (Json.str t) := by
    cases j <;> simp_all [jsGet]
  have e1 := runChunks_obs parse [s] [] (by simp)
  rw [List.nil_append] at e1
  have hflat : ([s] : List (List Char)).flatten = s := by simp
  rw [hflat] at e1
  have hev := congrArg Prod.fst e1
  have hoc := congrArg Prod.snd e1
  simp only [obs, streamObs] at hev hoc
  rw [hlines] at hev hoc
  simp only [processLines, hd, hp, ht, hterm, if_true, if_false,
    Bool.false_eq_true] at hev hoc
  exact ⟨hev, hgf, hjt, hoc⟩

/-- Instantiation of the C7 theorem: a frame with the unknown kind
"mystery" is forwarded and the stream continues to a later frame. -/
theorem queryStream_unknown_kind_forwarded_witness :
    completeLines "data: U\ndata: A\n".toList =
      "data: U".toList :: ["data: A".toList] ∧
    isDataLine "data: U".toList = true ∧
    parse0 (payloadOf "data: U".toList) =
      some (Json.obj [("type", Json.str "mystery")]) ∧
    jsGet (Json.obj [("type", Json.str "mystery")]) "type" =
      Except.ok (some (Json.str "mystery")) ∧
    (runChunks parse0 ["data: U\ndata: A\n".toList] []).events =
      Json.obj [("type", Json.str "mystery")] ::
        (processLines parse0 ["data: A".toList]).1 ∧
    isTerminalEv (Json.obj [("type", Json.str "mystery")]) = false ∧
    (runChunks parse0 ["data: U\ndata: A\n".toList] []).outcome =
      sigToEnd (processLines parse0 ["data: A".toList]).2 :=
  ⟨by decide, rfl, rfl, rfl,
    (queryStream_unknown_kind_forwarded parse0 "data: U\ndata: A\n".toList
        "data: U".toList ["data: A".toList]
        (Json.obj [("type", Json.str "mystery")]) "mystery" (by decide) rfl
        rfl rfl (by decide) (by decide) (by decide) (by decide)).1,
    (queryStream_unknown_kind_forwarded parse0 "data: U\ndata: A\n".toList
        "data: U".toList ["data: A".toList]
        (Json.obj [("type", Json.str "mystery")]) "mystery" (by decide) rfl
        rfl rfl (by decide) (by decide) (by decide) (by decide)).2.2.1,
    (queryStream_unknown_kind_forwarded parse0 "data: U\ndata: A\n".toList
        "data: U".toList ["data: A".toList]
        (Json.obj [("type", Json.str "mystery")]) "mystery" (by decide) rfl
        rfl rfl (by decide) (by decide) (by decide) (by decide)).2.2.2⟩

/-- C6: no events before failure. When the initiating streaming request
completes with a non-success status, `queryStream` throws before any
yield: the thrown value is an `APIError` carrying the response status
(or, for a null error body, the TypeError of the property access), and
zero events are yielded; when the request succeeds but provides no
readable streamed body, the missing-body error is thrown and zero
events are yielded. -/
theorem queryStream_no_events_before_failure (parse : List Char → Option Json)
    (r : Resp) :
    (r.ok = false →
      eventsOf (queryStream parse r) = [] ∧
      ∃ e, queryStream parse r = QSOut.thrownEarly e ∧
        ∀ a, e = Thrown.api a → a.status = r.status) ∧
    (r.ok = true → r.bodyChunks = none →
      queryStream parse r = QSOut.noBody ∧
      eventsOf (queryStream parse r) = []) := by
  constructor
  · intro hok
    cases hj : jsGet (r.jsonBody.getD
        (Json.obj [("error", Json.str "Unknown error")])) "error" with
    | error e =>
      refine ⟨?_, Thrown.typeError, ?_, ?_⟩ <;>
        simp [queryStream, hok, hj, eventsOf]
    | ok mv =>
      refine ⟨?_, Thrown.api ⟨errValue mv, r.status, none⟩, ?_, ?_⟩ <;>
        simp [queryStream, hok, hj, eventsOf]
  · intro hok hbody
    simp [queryStream, hok, hbody, eventsOf]

/-- Instantiation of the C6 theorem on a failed request and on a
successful request with a null body. -/
theorem queryStream_no_events_before_failure_witness :
    eventsOf (queryStream parse0
      ⟨false, 404, "NF", some (Json.obj [("error", Json.str "nope")]),
        none⟩) = [] ∧
    queryStream parse0
        ⟨false, 404, "NF", some (Json.obj [("error", Json.str "nope")]),
          none⟩ =
      QSOut.thrownEarly (Thrown.api ⟨Json.str "nope", 404, none⟩) ∧
    queryStream parse0 ⟨true, 200, "OK", none, none⟩ = QSOut.noBody ∧
    eventsOf (queryStream parse0 ⟨true, 200, "OK", none, none⟩) = [] :=
  ⟨((queryStream_no_events_before_failure parse0
      ⟨false, 404, "NF", some (Json.obj [("error", Json.str "nope")]),
        none⟩).1 rfl).1,
    rfl,
    ((queryStream_no_events_before_failure parse0
      ⟨true, 200, "OK", none, none⟩).2 rfl rfl).1,
    ((queryStream_no_events_before_failure parse0
      ⟨true, 200, "OK", none, none⟩).2 rfl rfl).2⟩

theorem jsGet_ok (j : Json) (k : String) (h : j ≠ Json.null) :
    jsGet j k = Except.ok (j.getF k) := by
  cases j <;> first | exact absurd rfl h | rfl

/-- Extraction of the detail carried by the error surfaced from the
request phase of `queryStream`. -/
def surfacedDetail : QSOut → Option Json
  | .thrownEarly (.api e) => e.detail
  | _ => none

/-- Streaming error response whose parsable body carries both an error
and a detail field. -/
def respStreamErr : Resp :=
  ⟨false, 500, "ISE",
    some (Json.obj [("error", Json.str "boom"), ("detail", Json.str "ctx")]),
    none⟩

/-- C5 counterexample: the claim fails on the streaming endpoint. The
error body carries a present detail field (the string "ctx"), yet the
error surfaced by `queryStream` carries no detail at all, because the
`APIError` constructor call of the streaming path omits the third
argument. -/
theorem queryStream_detail_dropped_cex :
    (respStreamErr.jsonBody.getD Json.null).getF "detail" =
      some (Json.str "ctx") ∧
    queryStream parse0 respStreamErr =
      QSOut.thrownEarly (Thrown.api ⟨Json.str "boom", 500, none⟩) ∧
    surfacedDetail (queryStream parse0 respStreamErr) = none ∧
    surfacedDetail (queryStream parse0 respStreamErr) ≠
      (respStreamErr.jsonBody.getD Json.null).getF "detail" :=
  ⟨rfl, rfl, rfl, fun h => Option.noConfusion h⟩

/-- C5 (amended): API-error surfacing with fallback. On the four
endpoints that go through `handleResponse` (health, upload,
non-streaming query, delete), a non-success response with a parsable
non-null body surfaces an `APIError` carrying the HTTP status, the
message taken from the error field (with the "API Error" fallback when
that field is absent or falsy) and the optional detail field; when the
body is unparsable, the fallback message "Unknown error" with the
status text as detail is surfaced and the call still fails with that
classified error. On the streaming endpoint the surfaced `APIError`
carries the status and the same message, but never a detail, and the
unparsable-body fallback carries "Unknown error" with no detail. -/
theorem api_error_surfacing_amended (parse : List Char → Option Json)
    (r : Resp) :
    (∀ e, r.ok = false → r.jsonBody = some e → e ≠ Json.null →
      handleResponse r =
        Except.error (Thrown.api
          ⟨errValue (e.getF "error"), r.status, e.getF "detail"⟩) ∧
      queryStream parse r =
        QSOut.thrownEarly (Thrown.api
          ⟨errValue (e.getF "error"), r.status, none⟩)) ∧
    (r.ok = false → r.jsonBody = none →
      handleResponse r =
        Except.error (Thrown.api
          ⟨Json.str "Unknown error", r.status,
            some (Json.str r.statusText)⟩) ∧
      queryStream parse r =
        QSOut.thrownEarly (Thrown.api
          ⟨Json.str "Unknown error", r.status, none⟩)) := by
  constructor
  · intro e hok hjb hnn
    constructor
    · simp [handleResponse, hok, hjb, jsGet_ok _ _ hnn]
    · simp [queryStream, hok, hjb, jsGet_ok _ _ hnn]
  · intro hok hjb
    constructor
    · simp [handleResponse, hok, hjb, jsGet, Json.getF, errValue, jsTruthy]
    · simp [queryStream, hok, hjb, jsGet, Json.getF, errValue, jsTruthy]

/-- Instantiation of the amended C5 theorem on a parsable error body
with a detail field and on an unparsable error body. -/
theorem api_error_surfacing_amended_witness :
    respStreamErr.ok = false ∧
    respStreamErr.jsonBody =
      some (Json.obj
        [("error", Json.str "boom"), ("detail", Json.str "ctx")]) ∧
    handleResponse respStreamErr =
      Except.error (Thrown.api
        ⟨Json.str "boom", 500, some (Json.str "ctx")⟩) ∧
    queryStream parse0 respStreamErr =
      QSOut.thrownEarly (Thrown.api ⟨Json.str "boom", 500, none⟩) ∧
    handleResponse ⟨false, 502, "BG", none, none⟩ =
      Except.error (Thrown.api
        ⟨Json.str "Unknown error", 502, some (Json.str "BG")⟩) ∧
    queryStream parse0 ⟨false, 502, "BG", none, none⟩ =
      QSOut.thrownEarly (Thrown.api ⟨Json.str "Unknown error", 502, none⟩) :=
  ⟨rfl, rfl,
    ((api_error_surfacing_amended parse0 respStreamErr).1 _ rfl rfl
      (fun h => Json.noConfusion h)).1,
    ((api_error_surfacing_amended parse0 respStreamErr).1 _ rfl rfl
      (fun h => Json.noConfusion h)).2,
    ((api_error_surfacing_amended parse0 ⟨false, 502, "BG", none, none⟩).2
      rfl rfl).1,
    ((api_error_surfacing_amended parse0 ⟨false, 502, "BG", none, none⟩).2
      rfl rfl).2⟩

/-- Result of scanning the buffered complete lines for the next event
inside the generator body: yield an event (remembering whether the body
will exit when resumed: terminal frame, or TypeError after a null
yield), throw before yielding, or run out of buffered lines. -/
inductive PullStep where
  | yield (j : Json) (rest : List (List Char)) (endP : Bool)
  | fail
  | moreInput

/-- Scan of the buffered complete lines of `queryStream` for the next
recognized frame, one caller pull at a time. -/
def pullLines (parse : List Char → Option Json) :
    List (List Char) → PullStep
  | [] => .moreInput
  | l :: rest =>
    if isDataLine l then
      match parse (payloadOf l) with
      | none => .fail
      | some j =>
        match jsGet j "type" with
        | .error _ => .yield j rest true
        | .ok t => .yield j rest (isTermField t)
    else pullLines parse rest

/-- Result of reading further transport chunks until an event is found
or the body exits. -/
inductive ChunkPull where
  | yield (j : Json) (pending : List (List Char))
      (chunks : List (List Char)) (buf : List Char) (endP : Bool)
  | stop

/-- Transport reads of `queryStream` performed while no decoded event is
available: each read decodes one chunk, buffers the trailing fragment,
and scans the fresh complete lines; the body exits on transport
exhaustion or on a thrown parse error. -/
def pullChunks (parse : List Char → Option Json) :
    List (List Char) → List Char → ChunkPull
  | [], _ => .stop
  | c :: cs, buf =>
    let segs := splitOnNl (buf ++ c)
    match pullLines parse segs.dropLast with
    | .yield j rest endP => .yield j rest cs (segs.getLastD []) endP
    | .fail => .stop
    | .moreInput => pullChunks parse cs (segs.getLastD [])

/-- State of one in-flight `queryStream` generator, after the reader
lock was acquired: decoded-but-unexamined lines, unread transport
chunks, the carried text buffer, whether the body will exit on the next
resume, whether the body has exited (its `finally` has run), whether the
reader lock is held, and how many times `releaseLock` ran. -/
structure Gen where
  pending : List (List Char)
  chunks : List (List Char)
  buf : List Char
  endPending : Bool
  finished : Bool
  locked : Bool
  releases : Nat

/-- Exit of the generator body: the `finally` clause runs, invoking
`reader.releaseLock()` exactly here. -/
def finishG (g : Gen) : Gen :=
  { g with
      finished := true
      locked := false
      releases := g.releases + 1
      endPending := false }

/-- One caller pull (a `next()` call): a finished generator reports done
without effect; a pending exit resumes the body into its return or
throw, running the `finally`; otherwise the body produces the next
event from the buffered lines or from further transport reads, and
exits through the `finally` when input ends or parsing throws. -/
def stepNext (parse : List Char → Option Json) (g : Gen) :
    Option Json × Gen :=
  if g.finished then (none, g)
  else if g.endPending then (none, finishG g)
  else
    match pullLines parse g.pending with
    | .yield j rest endP =>
      (some j, { g with pending := rest, endPending := endP })
    | .fail => (none, finishG g)
    | .moreInput =>
      match pullChunks parse g.chunks g.buf with
      | .yield j pend cs buf endP =>
        (some j,
          { g with
              pending := pend
              chunks := cs
              buf := buf
              endPending := endP })
      | .stop => (none, finishG g)

/-- Caller abandonment (a `return()` call, as issued by exiting a
for-await loop early): resumes the suspended body into a forced return,
running the `finally`; on an already finished generator it has no
effect. -/
def stepClose (g : Gen) : Gen :=
  if g.finished then g else finishG g

/-- Operations a caller can perform on the generator. -/
inductive GOp where
  | next
  | close

/-- Application of one caller operation to the generator state. -/
def applyOp (parse : List Char → Option Json) (g : Gen) : GOp → Gen
  | .next => (stepNext parse g).2
  | .close => stepClose g

/-- Application of a whole sequence of caller operations. -/
def runOps (parse : List Char → Option Json) : Gen → List GOp → Gen
  | g, [] => g
  | g, op :: ops => runOps parse (applyOp parse g op) ops

/-- Generator state right after the reader lock is acquired. -/
def initGen (chunks : List (List Char)) : Gen :=
  ⟨[], chunks, [], false, false, true, 0⟩

/-- Lifecycle invariant: while the body has not exited the lock is held
and was never released; once it has exited the lock is free and was
released exactly once. -/
def GenInv (g : Gen) : Prop :=
  (g.finished = true → g.releases = 1 ∧ g.locked = false) ∧
  (g.finished = false → g.releases = 0 ∧ g.locked = true)

/-- Characterization of one pull: it leaves a finished generator alone,
exits the body through the `finally`, or only advances the decoding
state, never touching the lock or the release count. -/
theorem stepNext_cases (parse : List Char → Option Json) (g : Gen) :
    (stepNext parse g).2 = g ∨
    (g.finished = false ∧ (stepNext parse g).2 = finishG g) ∨
    (g.finished = false ∧ ∃ pend cs buf endP, (stepNext parse g).2 =
      { g with
          pending := pend
          chunks := cs
          buf := buf
          endPending := endP }) := by
  by_cases hf : g.finished
  · left; simp [stepNext, hf]
  · have hf2 : g.finished = false := by simpa using hf
    by_cases he : g.endPending
    · right; left; exact ⟨hf2, by simp [stepNext, hf, he]⟩
    · cases hp : pullLines parse g.pending with
      | yield j rest endP =>
        right; right
        exact ⟨hf2, rest, g.chunks, g.buf, endP,
          by simp [stepNext, hf, he, hp]⟩
      | fail =>
        right; left; exact ⟨hf2, by simp [stepNext, hf, he, hp]⟩
      | moreInput =>
        cases hq : pullChunks parse g.chunks g.buf with
        | yield j pend cs buf endP =>
          right; right
          exact ⟨hf2, pend, cs, buf, endP,
            by simp [stepNext, hf, he, hp, hq]⟩
        | stop =>
          right; left; exact ⟨hf2, by simp [stepNext, hf, he, hp, hq]⟩

theorem finishG_inv (g : Gen) (h0 : g.releases = 0) : GenInv (finishG g) :=
  ⟨fun _ => ⟨by simp [finishG, h0], by simp [finishG]⟩,
    fun hx => by simp [finishG] at hx⟩

theorem stepNext_inv (parse : List Char → Option Json) (g : Gen)
    (h : GenInv g) : GenInv ((stepNext parse g).2) := by
  rcases stepNext_cases parse g with hc | ⟨hf, hc⟩ | ⟨hf, p, c2, b, e2, hc⟩ <;>
    rw [hc]
  · exact h
  · exact finishG_inv g (h.2 hf).1
  · exact ⟨fun hx => absurd hx (by simp [hf]), fun _ => (h.2 hf)⟩

theorem stepClose_inv (g : Gen) (h : GenInv g) : GenInv (stepClose g) := by
  by_cases hf : g.finished
  · simpa [stepClose, hf] using h
  · have hf2 : g.finished = false := by simpa using hf
    have hc : stepClose g = finishG g := by simp [stepClose, hf]
    rw [hc]
    exact finishG_inv g (h.2 hf2).1

theorem runOps_inv (parse : List Char → Option Json) (ops : List GOp) :
    ∀ g : Gen, GenInv g → GenInv (runOps parse g ops) := by
  induction ops with
  | nil => intro g h; exact h
  | cons op rest ih =>
    intro g h
    cases op with
    | next => exact ih _ (stepNext_inv parse g h)
    | close => exact ih _ (stepClose_inv g h)

theorem runOps_append_close (parse : List Char → Option Json)
    (ops : List GOp) : ∀ g : Gen,
    runOps parse g (ops ++ [GOp.close]) = stepClose (runOps parse g ops) := by
  induction ops with
  | nil => intro g; rfl
  | cons op rest ih => intro g; exact ih _

theorem stepClose_finished (g : Gen) : (stepClose g).finished = true := by
  by_cases hf : g.finished <;> simp [stepClose, finishG, hf]

theorem stepClose_idem (g : Gen) :
    stepClose (stepClose g) = stepClose g := by
  by_cases hf : g.finished <;> simp [stepClose, finishG, hf]

/-- C4: resource release on every exit path. Starting from the state in
which the reader lock was acquired, after any sequence of caller pulls
and closes: while the generator body has not exited, the lock is held
and was never released; once the body has exited, by a terminal event,
by transport exhaustion, by a decode error, or by caller abandonment,
the lock was released exactly once; abandoning the sequence after any
history leaves the resource released exactly once; and a close is
idempotent, safe even when the stream already terminated normally. -/
theorem queryStream_resource_release (parse : List Char → Option Json)
    (cs : List (List Char)) (ops : List GOp) :
    ((runOps parse (initGen cs) ops).finished = true →
      (runOps parse (initGen cs) ops).releases = 1 ∧
      (runOps parse (initGen cs) ops).locked = false) ∧
    ((runOps parse (initGen cs) ops).finished = false →
      (runOps parse (initGen cs) ops).releases = 0 ∧
      (runOps parse (initGen cs) ops).locked = true) ∧
    (runOps parse (initGen cs) (ops ++ [GOp.close])).releases = 1 ∧
    (runOps parse (initGen cs) (ops ++ [GOp.close])).locked = false ∧
    stepClose (stepClose (runOps parse (initGen cs) ops)) =
      stepClose (runOps parse (initGen cs) ops) := by
  have hinv : GenInv (runOps parse (initGen cs) ops) :=
    runOps_inv parse ops (initGen cs)
      ⟨fun hx => by simp [initGen] at hx, fun _ => ⟨rfl, rfl⟩⟩
  have hac := runOps_append_close parse ops (initGen cs)
  refine ⟨hinv.1, hinv.2, ?_, ?_, stepClose_idem _⟩
  · rw [hac]
    exact ((stepClose_inv _ hinv).1 (stepClose_finished _)).1
  · rw [hac]
    exact ((stepClose_inv _ hinv).1 (stepClose_finished _)).2

/-- Instantiation of the C4 theorem: pulling a stream to its terminal
event releases the lock exactly once, and abandoning after receiving
only the sources event also releases it exactly once. -/
theorem queryStream_resource_release_witness :
    (runOps parse0 (initGen ["data: D\n".toList])
      [GOp.next, GOp.next]).finished = true ∧
    (runOps parse0 (initGen ["data: D\n".toList])
      [GOp.next, GOp.next]).releases = 1 ∧
    (runOps parse0 (initGen ["data: D\n".toList])
      [GOp.next, GOp.next]).locked = false ∧
    (runOps parse0 (initGen ["data: S\ndata: D\n".toList])
      ([GOp.next] ++ [GOp.close])).releases = 1 ∧
    (runOps parse0 (initGen ["data: S\ndata: D\n".toList])
      ([GOp.next] ++ [GOp.close])).locked = false :=
  ⟨rfl,
    ((queryStream_resource_release parse0 ["data: D\n".toList]
      [GOp.next, GOp.next]).1 rfl).1,
    ((queryStream_resource_release parse0 ["data: D\n".toList]
      [GOp.next, GOp.next]).1 rfl).2,
    (queryStream_resource_release parse0 ["data: S\ndata: D\n".toList]
      [GOp.next]).2.2.1,
    (queryStream_resource_release parse0 ["data: S\ndata: D\n".toList]
      [GOp.next]).2.2.2.1⟩

/-- Event trace of the pull-based machine, with fuel. -/
def drain (parse : List Char → Option Json) : Nat → Gen → List Json
  | 0, _ => []
  | fuel + 1, g =>
    match stepNext parse g with
    | (some j, g2) => j :: drain parse fuel g2
    | (none, _) => []

/-- Coherence of the two embeddings of the generator on a sample
stream: pulling the machine to completion yields the same events as the
big-step read loop. -/
theorem drain_agrees_example :
    drain parse0 5 (initGen ["data: S\nda".toList, "ta: D\n".toList]) =
      (runChunks parse0 ["data: S\nda".toList, "ta: D\n".toList] []).events :=
  rfl

/-- Clamping applied by `QueryInterface` to one source chunk similarity
score before display: `Math.max(0, Math.min(1, similarity_score ?? 0))`,
the nullish score defaulting to zero. -/
def clampedSimilarity (score : Option ℚ) : ℚ :=
  max 0 (min 1 (score.getD 0))

/-- Displayed match percentage of `QueryInterface`:
`Math.round(similarity * 100)`. -/
def matchPercent (score : Option ℚ) : ℤ :=
  round (clampedSimilarity score * 100)

/-- C9: consumer-side similarity clamping with core pass-through. The
streaming core yields each parsed event exactly as the parse function
produced it, with no transformation or validation of any field; the UI
caller clamps the similarity score into the unit interval before
display, treating a missing score as zero, and the displayed match
percentage equals the rounding of one hundred times the clamped score
and always lies between 0 and 100, also for negative, too-large, or
absent scores. -/
theorem similarity_clamping (parse : List Char → Option Json)
    (lines : List (List Char)) (score : Option ℚ) :
    (∀ e ∈ (processLines parse lines).1, ∃ l ∈ lines,
        isDataLine l = true ∧ parse (payloadOf l) = some e) ∧
    clampedSimilarity none = 0 ∧
    0 ≤ clampedSimilarity score ∧ clampedSimilarity score ≤ 1 ∧
    matchPercent score = round (100 * clampedSimilarity score) ∧
    0 ≤ matchPercent score ∧ matchPercent score ≤ 100 := by
  have hc0 : 0 ≤ clampedSimilarity score := le_max_left 0 _
  have hc1 : clampedSimilarity score ≤ 1 :=
    max_le (by norm_num) (min_le_left 1 _)
  refine ⟨?_, by simp [clampedSimilarity], hc0, hc1,
    by rw [matchPercent, mul_comm], ?_, ?_⟩
  · induction lines with
    | nil => simp [processLines]
    | cons l rest ih =>
      intro e he
      by_cases hd : isDataLine l
      · cases hp : parse (payloadOf l) with
        | none => simp [processLines, hd, hp] at he
        | some j =>
          cases hj : jsGet j "type" with
          | error e2 =>
            simp only [processLines, hd, hp, hj, if_true] at he
            have : e = j := by simpa using he
            exact ⟨l, by simp, hd, this ▸ hp⟩
          | ok t =>
            by_cases ht : isTermField t
            · simp only [processLines, hd, hp, hj, ht, if_true] at he
              have : e = j := by simpa using he
              exact ⟨l, by simp, hd, this ▸ hp⟩
            · simp only [processLines, hd, hp, hj, ht, if_true, if_false,
                Bool.false_eq_true] at he
              rcases List.mem_cons.mp he with h1 | h1
              · exact ⟨l, by simp, hd, h1 ▸ hp⟩
              · rcases ih e h1 with ⟨l2, hl2, hd2, hp2⟩
                exact ⟨l2, by simp [hl2], hd2, hp2⟩
      · simp only [processLines, hd, if_false, Bool.false_eq_true] at he
        rcases ih e he with ⟨l2, hl2, hd2, hp2⟩
        exact ⟨l2, by simp [hl2], hd2, hp2⟩
  · have h1 : clampedSimilarity score * 100 - 1 / 2 <
        (matchPercent score : ℚ) := sub_half_lt_round _
    have h2 : (0 : ℚ) ≤ clampedSimilarity score * 100 := by nlinarith
    have h3 : (-1 : ℚ) < (matchPercent score : ℚ) := by linarith
    have h4 : (-1 : ℤ) < matchPercent score := by exact_mod_cast h3
    linarith
  · have h1 : (matchPercent score : ℚ) ≤
        clampedSimilarity score * 100 + 1 / 2 := round_le_add_half _
    have h2 : clampedSimilarity score * 100 + 1 / 2 < 101 := by nlinarith
    have h3 : (matchPercent score : ℚ) < 101 := lt_of_le_of_lt h1 h2
    exact Int.lt_add_one_iff.mp (by exact_mod_cast h3)

/-- Instantiation of the C9 theorem on a negative score, an oversized
score, and a missing score, with a concrete line list. -/
theorem similarity_clamping_witness :
    (processLines parse0 ["data: A".toList]).1 =
      [Json.obj [("type", Json.str "answer"), ("data", Json.str "hi")]] ∧
    matchPercent (some (-(3 : ℚ)/2)) = 0 ∧
    matchPercent (some ((7 : ℚ)/2)) = 100 ∧
    matchPercent none = 0 ∧
    0 ≤ matchPercent (some (-(3 : ℚ)/2)) ∧
    matchPercent (some ((7 : ℚ)/2)) ≤ 100 :=
  ⟨rfl,
    by norm_num [matchPercent, clampedSimilarity, round_eq, min_def, max_def],
    by norm_num [matchPercent, clampedSimilarity, round_eq, min_def, max_def],
    by norm_num [matchPercent, clampedSimilarity, round_eq, min_def, max_def],
    (similarity_clamping parse0 [] (some (-(3 : ℚ)/2))).2.2.2.2.2.1,
    (similarity_clamping parse0 [] (some ((7 : ℚ)/2))).2.2.2.2.2.2⟩

/-- Characters matched by the JavaScript regular-expression class \s and
removed by `String.prototype.trim`. -/
def isJsWs (c : Char) : Bool :=
  c = '\t' || c = '\n' || c = '\x0b' || c = '\x0c' || c = '\r' || c = ' ' ||
  c = '\u00A0' || c = '\u1680' ||
  (0x2000 ≤ c.toNat && c.toNat ≤ 0x200A) ||
  c = '\u2028' || c = '\u2029' || c = '\u202F' || c = '\u205F' ||
  c = '\u3000' || c = '\uFEFF'

/-- JavaScript line terminators, the characters around which the
multiline anchors of a regular expression match and which the dot does
not match. -/
def isLineTerm (c : Char) : Bool :=
  c = '\n' || c = '\r' || c = '\u2028' || c = '\u2029'

/-- Model of `String.prototype.trim`. -/
def trimJs (s : List Char) : List Char :=
  ((s.dropWhile isJsWs).reverse.dropWhile isJsWs).reverse

/-- Largest index of a character that is not a line terminator. -/
def lastNonTermIdx (w : List Char) : Option Nat :=
  match w.reverse.findIdx? (fun c => !isLineTerm c) with
  | some k => some (w.length - 1 - k)
  | none => none

/-- Attempt of the regular expression `\s+(.+)$` directly after a "##"
marker, following the backtracking behavior of the JavaScript engine:
the whitespace run is consumed greedily; the capture group takes the
characters from the first non-whitespace character to the end of its
line; when only whitespace follows, the group backtracks onto the last
whitespace character that is not a line terminator, provided at least
one whitespace character remains consumed. Returns the captured group
and the number of characters consumed after the marker. -/
def matchCore (u : List Char) : Option (List Char × Nat) :=
  let w := u.takeWhile isJsWs
  match u.dropWhile isJsWs with
  | [] =>
    match lastNonTermIdx w with
    | some q =>
      if 1 ≤ q then
        some ((w.drop q).takeWhile (fun c => !isLineTerm c), q + 1)
      else none
    | none => none
  | c :: v2 =>
    if w.length = 0 then none
    else
      let grp := (c :: v2).takeWhile (fun c => !isLineTerm c)
      some (grp, w.length + grp.length)

/-- Attempt of the heading regular expression `^##\s+(.+)$` at the start
of the text `t` (the caret anchor is checked by the caller). Returns the
captured group and the length of the whole match. -/
def matchFrom (t : List Char) : Option (List Char × Nat) :=
  match t with
  | c1 :: c2 :: u =>
    if c1 = '#' then
      if c2 = '#' then (matchCore u).map (fun p => (p.1, 2 + p.2))
      else none
    else none
  | _ => none

/-- Positions at which the multiline caret anchor matches: the start of
the input, or directly after a line terminator. -/
def lineStart (s : List Char) (i : Nat) : Bool :=
  if i = 0 then true
  else
    match s[i-1]? with
    | some c => isLineTerm c
    | none => false

/-- Scan of `regex.exec` for the next match at a position at or beyond
`i`: each candidate position in turn is checked for the caret anchor and
the rest of the pattern; the fuel counts the remaining candidate
positions. Returns the match index, the raw captured group, and the end
position of the match. -/
def findFromAux (s : List Char) : Nat → Nat → Option (Nat × List Char × Nat)
  | _, 0 => none
  | i, fuel + 1 =>
    if i ≤ s.length then
      if lineStart s i then
        match matchFrom (s.drop i) with
        | some (g, len) => some (i, g, i + len)
        | none => findFromAux s (i+1) fuel
      else findFromAux s (i+1) fuel
    else none

/-- Next match of the heading regular expression at or beyond `pos`. -/
def findFrom (s : List Char) (pos : Nat) : Option (Nat × List Char × Nat) :=
  findFromAux s pos (s.length + 1 - pos)

/-- Collection loop of `parseSections`: repeated `exec` calls with the
global flag, each resuming at the end of the previous match; every
match is recorded as its start index and its trimmed captured group. -/
def findMatchesAux (s : List Char) : Nat → Nat → List (Nat × List Char)
  | 0, _ => []
  | fuel + 1, pos =>
    match findFrom s pos with
    | some (i, g, e) => (i, trimJs g) :: findMatchesAux s fuel e
    | none => []

/-- All heading matches of the input, in scan order. -/
def findMatches (s : List Char) : List (Nat × List Char) :=
  findMatchesAux s (s.length + 1) 0

/-- Model of `String.prototype.indexOf(needle, from)` for a single
character needle. -/
def indexOfFrom (s : List Char) (c : Char) (i : Nat) : Option Nat :=
  match (s.drop i).findIdx? (fun x => x = c) with
  | some k => some (i + k)
  | none => none

/-- Section assembly loop of `parseSections`: for each match, the
content starts after the first newline at or after the match start (or
at the end of input when there is none) and stops at the start of the
next match (or the end of input), and is trimmed. -/
def buildSections (md : List Char) :
    List (Nat × List Char) → List (List Char × List Char)
  | [] => []
  | (i, title) :: rest =>
    let start := match indexOfFrom md '\n' i with
      | none => md.length
      | some e => e + 1
    let stop := match rest with
      | [] => md.length
      | (j, _) :: _ => j
    (title, trimJs ((md.take stop).drop start)) :: buildSections md rest

/-- Model of `parseSections` of QueryInterface.tsx: a blank input gives
no sections; an input without a heading match gives the single section
"Answer" holding the whole input; otherwise one section per heading
match. -/
def parseSections (md : List Char) : List (List Char × List Char) :=
  if trimJs md = [] then []
  else
    match findMatches md with
    | [] => [("Answer".toList, md)]
    | m :: rest => buildSections md (m :: rest)

theorem lineTerm_isWs (c : Char) (h : isLineTerm c = true) :
    isJsWs c = true := by
  simp only [isLineTerm, Bool.or_eq_true, decide_eq_true_eq, or_assoc] at h
  rcases h with h | h | h | h <;> subst h <;> decide

theorem dropWhile_head_not (p : Char → Bool) :
    ∀ (l : List Char) (c : Char) (v2 : List Char),
      l.dropWhile p = c :: v2 → p c = false := by
  intro l
  induction l with
  | nil => intro c v2 h; simp [List.dropWhile] at h
  | cons a as ih =>
    intro c v2 h
    rw [List.dropWhile_cons] at h
    by_cases hp : p a
    · rw [if_pos hp] at h
      exact ih _ _ h
    · rw [if_neg hp] at h
      cases h
      simpa using hp

theorem lastNonTermIdx_lt (w : List Char) (q : Nat)
    (h : lastNonTermIdx w = some q) : q < w.length := by
  unfold lastNonTermIdx at h
  cases hf : w.reverse.findIdx? (fun c => !isLineTerm c) with
  | none => rw [hf] at h; exact Option.noConfusion h
  | some k =>
    rw [hf] at h
    injection h with h2
    have hw : w ≠ [] := by
      intro hnil
      subst hnil
      simp [List.findIdx?] at hf
    have hlen : 1 ≤ w.length := List.length_pos.mpr hw
    omega

theorem matchCore_len (u g : List Char) (k : Nat)
    (h : matchCore u = some (g, k)) : 2 ≤ k ∧ k ≤ u.length := by
  simp only [matchCore] at h
  split at h
  · split at h
    · rename_i q hq
      split at h
      · rename_i h1
        injection h with h2
        rw [Prod.mk.injEq] at h2
        have hk := h2.2
        have hlt : q < (u.takeWhile isJsWs).length :=
          lastNonTermIdx_lt _ _ hq
        have hle : (u.takeWhile isJsWs).length ≤ u.length :=
          (List.takeWhile_prefix isJsWs).length_le
        omega
      · exact Option.noConfusion h
    · exact Option.noConfusion h
  · rename_i c v2 hv
    split at h
    · exact Option.noConfusion h
    · rename_i h0
      injection h with h2
      rw [Prod.mk.injEq] at h2
      have hk := h2.2
      have hc : isJsWs c = false := dropWhile_head_not isJsWs u c v2 hv
      have hcl : isLineTerm c = false := by
        cases hcl2 : isLineTerm c
        · rfl
        · rw [lineTerm_isWs c hcl2] at hc
          exact Bool.noConfusion hc
      have hg1 : 1 ≤ ((c :: v2).takeWhile (fun x => !isLineTerm x)).length := by
        rw [List.takeWhile_cons_of_pos (by simp [hcl])]
        simp
      have hg2 : ((c :: v2).takeWhile (fun x => !isLineTerm x)).length ≤
          (c :: v2).length := (List.takeWhile_prefix _).length_le
      have hsum : (u.takeWhile isJsWs).length + (c :: v2).length =
          u.length := by
        have hx := List.takeWhile_append_dropWhile (p := isJsWs) (l := u)
        rw [hv] at hx
        have := congrArg List.length hx
        simpa [List.length_append] using this
      omega

theorem matchFrom_len (t g : List Char) (len : Nat)
    (h : matchFrom t = some (g, len)) : 4 ≤ len ∧ len ≤ t.length := by
  cases t with
  | nil => exact absurd h (by simp [matchFrom])
  | cons c1 t1 =>
    cases t1 with
    | nil => exact absurd h (by simp [matchFrom])
    | cons c2 u =>
      simp only [matchFrom] at h
      by_cases h1 : c1 = '#'
      · rw [if_pos h1] at h
        by_cases h2 : c2 = '#'
        · rw [if_pos h2] at h
          cases hm : matchCore u with
          | none => rw [hm] at h; exact Option.noConfusion h
          | some p =>
            obtain ⟨g2, k⟩ := p
            rw [hm] at h
            simp only [Option.map_some'] at h
            injection h with h3
            rw [Prod.mk.injEq] at h3
            have hb := matchCore_len u g2 k hm
            simp only [List.length_cons]
            omega
        · rw [if_neg h2] at h; exact Option.noConfusion h
      · rw [if_neg h1] at h; exact Option.noConfusion h

theorem findFromAux_some (s : List Char) :
    ∀ (fuel i idx e : Nat) (g : List Char),
      findFromAux s i fuel = some (idx, g, e) →
      i ≤ idx ∧ idx + 4 ≤ e ∧ e ≤ s.length := by
  intro fuel
  induction fuel with
  | zero =>
    intro i idx e g h
    exact absurd h (by simp [findFromAux])
  | succ fuel ih =>
    intro i idx e g h
    simp only [findFromAux] at h
    by_cases hi : i ≤ s.length
    · rw [if_pos hi] at h
      by_cases hl : lineStart s i = true
      · rw [if_pos hl] at h
        cases hm : matchFrom (s.drop i) with
        | none =>
          rw [hm] at h
          have := ih (i+1) idx e g h
          omega
        | some p =>
          obtain ⟨g2, len⟩ := p
          rw [hm] at h
          injection h with h2
          rw [Prod.mk.injEq, Prod.mk.injEq] at h2
          have hml := matchFrom_len (s.drop i) g2 len hm
          have hdl : (s.drop i).length = s.length - i := List.length_drop i s
          omega
      · rw [if_neg hl] at h
        have := ih (i+1) idx e g h
        omega
    · rw [if_neg hi] at h
      exact Option.noConfusion h

theorem findFrom_some (s : List Char) (pos idx e : Nat) (g : List Char)
    (h : findFrom s pos = some (idx, g, e)) :
    pos ≤ idx ∧ idx + 4 ≤ e ∧ e ≤ s.length :=
  findFromAux_some s _ pos idx e g h

theorem findFrom_none_of_big (s : List Char) (pos : Nat)
    (h : s.length + 1 ≤ pos) : findFrom s pos = none := by
  unfold findFrom
  have h0 : s.length + 1 - pos = 0 := by omega
  rw [h0]
  rfl

theorem findMatchesAux_bounds (s : List Char) :
    ∀ (fuel pos : Nat),
      (∀ m ∈ findMatchesAux s fuel pos, pos ≤ m.1) ∧
      List.Chain' (fun a b => a.1 < b.1) (findMatchesAux s fuel pos) := by
  intro fuel
  induction fuel with
  | zero => intro pos; simp [findMatchesAux]
  | succ fuel ih =>
    intro pos
    simp only [findMatchesAux]
    cases hf : findFrom s pos with
    | none => simp
    | some p =>
      obtain ⟨i, g, e⟩ := p
      have hb := findFrom_some s pos i e g hf
      constructor
      · intro m hm
        rcases List.mem_cons.mp hm with h1 | h1
        · rw [h1]; exact hb.1
        · have := (ih e).1 m h1
          omega
      · rw [List.chain'_cons']
        constructor
        · intro y hy
          have hmem : y ∈ findMatchesAux s fuel e :=
            List.mem_of_mem_head? hy
          have := (ih e).1 y hmem
          simp only []
          omega
        · exact (ih e).2

/-- Fuel adequacy of the match-collection loop: any fuel budget at
least the number of remaining candidate positions gives the same
result, so the budget used by `findMatches` is faithful to the
unbounded `exec` loop of the source. -/
theorem findMatchesAux_stable (s : List Char) :
    ∀ (fuel fuel' pos : Nat), s.length + 1 ≤ fuel + pos →
      s.length + 1 ≤ fuel' + pos →
      findMatchesAux s fuel pos = findMatchesAux s fuel' pos := by
  intro fuel
  induction fuel with
  | zero =>
    intro fuel' pos h h'
    have hnone : findFrom s pos = none :=
      findFrom_none_of_big s pos (by omega)
    cases fuel' with
    | zero => rfl
    | succ f2 => simp [findMatchesAux, hnone]
  | succ fuel ih =>
    intro fuel' pos h h'
    cases fuel' with
    | zero =>
      have hnone : findFrom s pos = none :=
        findFrom_none_of_big s pos (by omega)
      simp [findMatchesAux, hnone]
    | succ f2 =>
      simp only [findMatchesAux]
      cases hf : findFrom s pos with
      | none => rfl
      | some p =>
        obtain ⟨i, g, e⟩ := p
        have hb := findFrom_some s pos i e g hf
        exact congrArg (List.cons (i, trimJs g)) (ih f2 e (by omega) (by omega))

theorem trimJs_eq_nil (md : List Char) (h : ∀ c ∈ md, isJsWs c = true) :
    trimJs md = [] := by
  unfold trimJs
  rw [List.dropWhile_eq_nil_iff.mpr h]
  rfl

/-- Content assigned to one heading match per the amended claim: the
trimmed text strictly between the end of the line containing the match
start (the first newline at or after the match start; the end of input
when there is none) and the start of the next match, or the end of
input for the final match. -/
def sectionContent (md : List Char) (i : Nat) (nxt : Option Nat) :
    List Char :=
  let start := match indexOfFrom md '\n' i with
    | none => md.length
    | some e => e + 1
  let stop := match nxt with
    | none => md.length
    | some j => j
  trimJs ((md.take stop).drop start)

theorem buildSections_shape (md : List Char) :
    ∀ ms : List (Nat × List Char),
      buildSections md ms =
        (ms.zip ((ms.map (fun p => some p.1)).tail ++ [none])).map
          (fun q => (q.1.2, sectionContent md q.1.1 q.2)) := by
  intro ms
  induction ms with
  | nil => rfl
  | cons m rest ih =>
    cases rest with
    | nil => rfl
    | cons m2 r2 =>
      simp only [List.map_cons, List.tail_cons, List.cons_append,
        List.zip_cons_cons, List.map_cons]
      have ih2 := ih
      simp only [List.map_cons, List.tail_cons] at ih2
      rw [← ih2]
      rfl

/-- C10 counterexample: the claim fails on the input consisting of a
line holding only "##" followed by a line holding "foo". No individual
line of that input matches the "##" heading pattern, and the input is
not whitespace-only, so the claim requires the single section
("Answer", full input); but because \s+ in the heading regular
expression also consumes line terminators, the code finds a heading
match spanning both lines and returns the section ("foo", "foo"). -/
theorem parseSections_cex :
    ((splitOnNl "##\nfoo".toList).all (fun l => (matchFrom l).isNone)) =
      true ∧
    trimJs "##\nfoo".toList ≠ [] ∧
    parseSections "##\nfoo".toList = [("foo".toList, "foo".toList)] ∧
    parseSections "##\nfoo".toList ≠
      [("Answer".toList, "##\nfoo".toList)] :=
  ⟨by decide, by decide, by decide, by decide⟩

/-- C10 (amended): parseSections totality and shape. For every
whitespace-only input the result is the empty list; for every input
that is not whitespace-only and on which the multiline heading regular
expression finds no match, the result is exactly one section with
heading "Answer" and content the full input; otherwise the result has
one section per regular-expression match, in strictly increasing order
of match position, each section carrying the trimmed captured group as
its heading and, as its content, the trimmed text strictly between the
first newline at or after the match start and the start of the next
match (or the end of input). Because \s+ of the pattern can consume
line terminators, a match (hence a heading) may span lines; the
per-line reading of the claim is refuted by the counterexample. -/
theorem parseSections_spec (md : List Char) :
    ((∀ c ∈ md, isJsWs c = true) → parseSections md = []) ∧
    (trimJs md ≠ [] → findMatches md = [] →
      parseSections md = [("Answer".toList, md)]) ∧
    (trimJs md ≠ [] → findMatches md ≠ [] →
      parseSections md =
        ((findMatches md).zip
            (((findMatches md).map (fun p => some p.1)).tail ++ [none])).map
          (fun q => (q.1.2, sectionContent md q.1.1 q.2))) ∧
    List.Chain' (fun a b => a.1 < b.1) (findMatches md) := by
  refine ⟨?_, ?_, ?_,
    (findMatchesAux_bounds md (md.length + 1) 0).2⟩
  · intro h
    simp [parseSections, trimJs_eq_nil md h]
  · intro h1 h2
    simp [parseSections, h1, h2]
  · intro h1 h2
    rw [← buildSections_shape md (findMatches md)]
    cases hm : findMatches md with
    | nil => exact absurd hm h2
    | cons m rest =>
      simp [parseSections, h1, hm]

/-- Instantiation of the amended C10 theorem on a whitespace-only
input, an input with no heading match, and an input with one heading
line. -/
theorem parseSections_spec_witness :
    (∀ c ∈ ("  ".toList : List Char), isJsWs c = true) ∧
    parseSections "  ".toList = [] ∧
    trimJs "x".toList ≠ [] ∧
    findMatches "x".toList = [] ∧
    parseSections "x".toList = [("Answer".toList, "x".toList)] ∧
    trimJs "## A\nbody".toList ≠ [] ∧
    findMatches "## A\nbody".toList ≠ [] ∧
    parseSections "## A\nbody".toList =
      ((findMatches "## A\nbody".toList).zip
          (((findMatches "## A\nbody".toList).map
            (fun p => some p.1)).tail ++ [none])).map
        (fun q =>
          (q.1.2, sectionContent "## A\nbody".toList q.1.1 q.2)) :=
  ⟨by decide,
    (parseSections_spec "  ".toList).1 (by decide),
    by decide, by decide,
    (parseSections_spec "x".toList).2.1 (by decide) (by decide),
    by decide, by decide,
    (parseSections_spec "## A\nbody".toList).2.2.1 (by decide) (by decide)⟩
